import Mathlib

/-!
Verification of the `apply-license` library (`src/lib.rs`).

The Rust source is shallowly embedded below:

* `parse_spdx`, `parse_author_names`, `parse_git_style_author` and
  `render_license_text` are translated to executable Lean functions.
* The two embedded data files (`src/licenses.toml`, the license catalog, and
  `src/spdx-licenses.json`, the SPDX reference list) are not part of the
  source tree given to us, so the catalog `LICENSES` and the reference list
  `SPDX_LICENSE_IDS` are modelled from the spec; all structural theorems are
  proved for an arbitrary catalog and reference list wherever possible.
* The Handlebars templating engine (an external crate) is abstracted as a
  `Handlebars` record of a template-compilation check and a rendering
  function; a panic of the Rust process is modelled by the
  `RenderResult.panicked` constructor, a returned `Err` by
  `RenderResult.err`.
* `chrono`'s `Local::today().year()` is a clock read; the current year is
  passed to `render_license_text` as an explicit parameter.
-/

namespace ApplyLicense

/-! ## Character level utilities -/

/-- Unicode `White_Space` property, as used by Rust's `char::is_whitespace`
(which `str::split_whitespace` splits on). -/
def rustIsWhitespace (c : Char) : Bool :=
  c.toNat == 0x9 || c.toNat == 0xA || c.toNat == 0xB || c.toNat == 0xC ||
  c.toNat == 0xD || c.toNat == 0x20 || c.toNat == 0x85 || c.toNat == 0xA0 ||
  c.toNat == 0x1680 || c.toNat == 0x2000 || c.toNat == 0x2001 ||
  c.toNat == 0x2002 || c.toNat == 0x2003 || c.toNat == 0x2004 ||
  c.toNat == 0x2005 || c.toNat == 0x2006 || c.toNat == 0x2007 ||
  c.toNat == 0x2008 || c.toNat == 0x2009 || c.toNat == 0x200A ||
  c.toNat == 0x2028 || c.toNat == 0x2029 || c.toNat == 0x202F ||
  c.toNat == 0x205F || c.toNat == 0x3000

/-! ## The data model -/

/-- An open-source license: the output-file identifier, the SPDX identifier
used for matching, and the handlebars template of the license text.
Mirrors `struct License` in `src/lib.rs`. -/
structure License where
  identifier : String
  spdx : String
  text : String
deriving DecidableEq, Repr

/-- Modelled from the spec: the MIT entry of the bundled catalog. -/
def mitLicense : License := ⟨"MIT", "MIT", "MIT License text template"⟩

/-- Modelled from the spec: the Apache-2.0 entry of the bundled catalog. -/
def apacheLicense : License := ⟨"APACHE", "Apache-2.0", "Apache License text template"⟩

/-- Modelled from the spec: the GPL-3.0 entry of the bundled catalog. -/
def gplLicense : License := ⟨"GPL", "GPL-3.0", "GPL license text template"⟩

/-- Modelled from the spec: the embedded data file `src/licenses.toml`
(the bundled license catalog) is not under `src/`.  Per the spec the catalog
contains at least the MIT, Apache-2.0 and GPL-3.0 entries (the identifiers
`MIT` / `APACHE` are named in the spec's testable properties), each with a
small template text. -/
def LICENSES : List License :=
  [mitLicense, apacheLicense, gplLicense]

/-- Modelled from the spec: the embedded data file `src/spdx-licenses.json`
(the SPDX 2.4 reference list) is not under `src/`.  The model keeps a
representative list of SPDX 2.4 license IDs; note that `Zlib`, `ISC`,
`BSD-3-Clause`, ... are valid SPDX IDs that have no catalog entry. -/
def SPDX_LICENSE_IDS : List String :=
  [ "MIT", "Apache-2.0", "GPL-3.0", "GPL-2.0", "BSD-2-Clause", "BSD-3-Clause",
    "ISC", "MPL-2.0", "LGPL-3.0", "Unlicense", "Zlib", "AGPL-3.0", "CC0-1.0" ]

/-- `is_valid_spdx_id` from `src/lib.rs`: whether the given ID matches an
entry of the SPDX reference list (case-sensitively). -/
def is_valid_spdx_id (id : String) : Bool :=
  SPDX_LICENSE_IDS.any (fun license => license == id)

/-! ## The expression parser (`parse_spdx`) -/

/-- The tokenization step of `parse_spdx`: if the expression contains a `/`,
split on `/` (keeping empty pieces, like Rust's `str::split`); otherwise
split on whitespace (dropping empty pieces, like `str::split_whitespace`). -/
def tokenize (expr : String) : List String :=
  if expr.data.contains '/' then
    (expr.data.splitOn '/').map (fun t => String.mk t)
  else
    ((expr.data.splitOnP rustIsWhitespace).filter (fun t => t ≠ [])).map
      (fun t => String.mk t)

/-- Whether a token is one of the three boolean-operator keywords that the
`flat_map` in `parse_spdx` discards. -/
def isOperatorToken (t : String) : Bool :=
  t == "WITH" || t == "OR" || t == "AND"

/-- The operator-stripping `flat_map` of `parse_spdx`: tokens `WITH`, `OR`
and `AND` are dropped, every other token is kept. -/
def stripOperators (tokens : List String) : List String :=
  tokens.filterMap (fun token => if isOperatorToken token then none else some token)

/-- The two error kinds `parse_spdx` can produce, one per `anyhow!` call. -/
inductive ParseError where
  | invalidId (token : String)
  | unsupported (token : String)
deriving DecidableEq, Repr

/-- Resolution of a single token, the body of the `map` in `parse_spdx`:
an unrecognized SPDX ID is an `invalidId` error, a recognized one without a
catalog entry is an `unsupported` error.  Parametrized by the reference-list
membership test `valid` and the catalog, which are global data in the Rust
code. -/
def resolveToken (valid : String → Bool) (catalog : List License) (id : String) :
    Except ParseError License :=
  if valid id then
    match catalog.find? (fun license => license.spdx == id) with
    | some license => .ok license
    | none => .error (.unsupported id)
  else
    .error (.invalidId id)

/-- `collect::<Result<Vec<_>>>` over the token resolutions: stops at the
first error, otherwise returns all resolved licenses in order. -/
def resolveTokens (valid : String → Bool) (catalog : List License) :
    List String → Except ParseError (List License)
  | [] => .ok []
  | id :: rest =>
    match resolveToken valid catalog id with
    | .error e => .error e
    | .ok license =>
      match resolveTokens valid catalog rest with
      | .error e => .error e
      | .ok licenses => .ok (license :: licenses)

/-- `parse_spdx` from `src/lib.rs`: tokenize, strip operators, resolve each
token against the reference list and the catalog. -/
def parse_spdx (valid : String → Bool) (catalog : List License) (expr : String) :
    Except ParseError (List License) :=
  resolveTokens valid catalog (stripOperators (tokenize expr))

/-! ## The author normalizer (`parse_author_names`)

`parse_git_style_author` in `src/lib.rs` searches the author string with the
regex `(?P<name>.+) <(?P<email>.+)>` of the `regex` crate (leftmost match,
greedy `.+`, `.` does not match a newline) and returns the `name` capture.
The embedding works line by line (a match never spans a `\n`): within the
first line that contains a match, the greedy `name` capture runs from the
start of the line to the last blank-`<` pair that is followed by a nonempty
email and a closing `>`. -/

/-- Whether a line suffix has the form `'<' :: email ++ '>' :: rest` with a
nonempty email: a `<` followed by a `>` at distance at least two. -/
def emailTail : List Char → Bool
  | c1 :: u => c1 == '<' && (u.drop 1).contains '>'
  | [] => false

/-- The greedy search inside one line: `gitSplit t = some a` means
`t = a ++ ' ' :: '<' :: u` for some `u` with a `'>'` at position ≥ 1 (a
nonempty email before a closing bracket), and `a` is the longest such
prefix (the greedy `name` capture, possibly empty). -/
def gitSplit : List Char → Option (List Char)
  | [] => none
  | c :: cs =>
    match gitSplit cs with
    | some a => some (c :: a)
    | none => if c == ' ' && emailTail cs then some [] else none

/-- The regex match within one line: the greedy name capture, which must be
nonempty (`.+`). -/
def gitMatchLine (t : List Char) : Option (List Char) :=
  match gitSplit t with
  | some a => if a = [] then none else some a
  | none => none

/-- The lines of a string, split on `'\n'` (the one character the regex `.`
does not match). -/
def linesOf (cs : List Char) : List (List Char) :=
  cs.splitOn '\n'

/-- `parse_git_style_author` from `src/lib.rs`: the `name` capture of the
leftmost match of `(?P<name>.+) <(?P<email>.+)>`, if any. -/
def parse_git_style_author (name : String) : Option String :=
  ((linesOf name.data).findSome? gitMatchLine).map (fun a => String.mk a)

/-- The single error kind of `parse_author_names`. -/
inductive AuthorError where
  | noAuthors
deriving DecidableEq, Repr

/-- `parse_author_names` from `src/lib.rs`: fails if the list is empty,
otherwise replaces each git-style `Name <email>` entry by its name part and
keeps every other entry unchanged. -/
def parse_author_names (authors : List String) : Except AuthorError (List String) :=
  if authors.isEmpty then
    .error .noAuthors
  else
    .ok (authors.map fun author =>
      match parse_git_style_author author with
      | some name => name
      | none => author)

/-! ## The template renderer (`render_license_text`) -/

/-- The serialized data handed to the template engine: the current local
calendar year and the comma-joined copyright holders.  Mirrors
`struct TemplateData` in `src/lib.rs`. -/
structure TemplateData where
  year : Int
  copyright_holders : String
deriving DecidableEq, Repr

/-- Abstraction of the external `handlebars` crate: whether a template
string compiles (`register_template_string` succeeds on it), and what a
compiled template renders to on given data (`Except.error` is a
`RenderError`). -/
structure Handlebars where
  compileOk : String → Bool
  renderTpl : String → TemplateData → Except String String

/-- Outcome of a Rust function that may panic: `panicked` models a process
abort (here: the `expect` on template registration), `err` a returned
`Err`, `ok` a returned `Ok`. -/
inductive RenderResult (α : Type) where
  | panicked (msg : String)
  | err (e : String)
  | ok (a : α)
deriving DecidableEq, Repr

/-- Lexicographic codepoint order on character lists, the `Ord` comparison
of `BTreeMap<PathBuf, _>` keys (byte order and codepoint order agree on the
names this program builds). -/
def charListLt : List Char → List Char → Bool
  | _, [] => false
  | [], _ :: _ => true
  | a :: as, b :: bs =>
    if a.toNat < b.toNat then true
    else if b.toNat < a.toNat then false
    else charListLt as bs

/-- The key order of the rendered-output `BTreeMap`. -/
def strLt (a b : String) : Bool :=
  charListLt a.data b.data

/-- Ordered insertion into an association list sorted by key, replacing an
existing binding: the `BTreeMap::insert` of the `collect` in
`render_license_text`. -/
def btreeInsert (k : String) (v : String) :
    List (String × String) → List (String × String)
  | [] => [(k, v)]
  | (k', v') :: rest =>
    if strLt k k' then (k, v) :: (k', v') :: rest
    else if k = k' then (k, v) :: rest
    else (k', v') :: btreeInsert k v rest

/-- `BTreeMap::get`. -/
def mapLookup (k : String) : List (String × String) → Option String
  | [] => none
  | (k', v) :: rest => if k = k' then some v else mapLookup k rest

/-- The keys of the rendered map. -/
def keysOf (m : List (String × String)) : List String :=
  m.map Prod.fst

/-- The handlebars template registry after the registration loop of
`render_license_text`: every global license's text is registered under its
`spdx` name; a later registration overwrites an earlier one. -/
def registryLookup (globalLicenses : List License) (templateName : String) :
    Option String :=
  (globalLicenses.reverse.find? (fun l => l.spdx == templateName)).map
    (fun l => l.text)

/-- Rendering of a single license inside the `map` of `render_license_text`:
look the registered template up by the license's `spdx` name and render it
with the year and the comma-joined author list. -/
def renderOne (hb : Handlebars) (globalLicenses : List License) (year : Int)
    (authors : List String) (license : License) : Except String String :=
  match registryLookup globalLicenses license.spdx with
  | some text => hb.renderTpl text ⟨year, String.intercalate ", " authors⟩
  | none => .error ("template not found " ++ license.spdx)

/-- The name of the output file for one license: `LICENSE` when the input
list has exactly one license, `LICENSE-` followed by the identifier
otherwise. -/
def nameOf (total : Nat) (license : License) : String :=
  if total = 1 then "LICENSE" else "LICENSE-" ++ license.identifier

/-- The `map`/`collect` loop of `render_license_text`: render each license
in order, stopping at the first error, inserting each rendered file into the
accumulated `BTreeMap`. -/
def renderAll (hb : Handlebars) (globalLicenses : List License) (year : Int)
    (authors : List String) (total : Nat) (acc : List (String × String)) :
    List License → Except String (List (String × String))
  | [] => .ok acc
  | license :: rest =>
    match renderOne hb globalLicenses year authors license with
    | .error e => .error e
    | .ok contents =>
      renderAll hb globalLicenses year authors total
        (btreeInsert (nameOf total license) contents acc) rest

/-- `render_license_text` from `src/lib.rs`: register every global catalog
template (panicking, via `expect`, if any of them has a syntax defect), then
render each requested license and collect the files into a map. -/
def render_license_text (hb : Handlebars) (globalLicenses : List License)
    (year : Int) (licenses : List License) (authors : List String) :
    RenderResult (List (String × String)) :=
  if globalLicenses.all (fun license => hb.compileOk license.text) then
    match renderAll hb globalLicenses year authors licenses.length [] licenses with
    | .ok m => .ok m
    | .error e => .err e
  else
    .panicked ("syntax error in license template")

/-! ## Specification predicates and witness data -/

/-- A (possibly empty) name capture position inside one line: the line is
the candidate name, a blank, a `<`, then a nonempty email with a closing
`>` somewhere after it. -/
def GitSplitAt (t a : List Char) : Prop :=
  ∃ u, t = a ++ ' ' :: '<' :: u ∧ '>' ∈ u.drop 1

/-- The claim's pattern: a nonempty display name followed by a blank and an
angle-bracketed nonempty email. -/
def GitPattern (t a : List Char) : Prop :=
  a ≠ [] ∧ GitSplitAt t a

/-- The greedy capture: the name matches the pattern and no longer name
does (the name extends to the last usable angle-bracket pair). -/
def GitGreedyName (t a : List Char) : Prop :=
  GitPattern t a ∧ ∀ a', GitPattern t a' → a'.length ≤ a.length

/-- The strict-sorted-keys invariant every map built by `btreeInsert` from
the empty map satisfies. -/
def SortedKeys (m : List (String × String)) : Prop :=
  m.Pairwise (fun x y => strLt x.1 y.1 = true)

/-- A concrete engine for witnesses: every template compiles, and a
template renders to its own source text. -/
def hbId : Handlebars := ⟨fun _ => true, fun text _ => .ok text⟩

/-- A concrete engine on which every template has a syntax defect. -/
def hbBroken : Handlebars := ⟨fun _ => false, fun text _ => .ok text⟩

/-- Whether a render outcome is a process abort. -/
def isPanic : RenderResult (List (String × String)) → Bool
  | .panicked _ => true
  | .err _ => false
  | .ok _ => false

/-! ## Lemmas about `List.splitOnP` -/

/-- The characters of the split pieces are exactly the non-separator
characters, in order. -/
theorem flatten_splitOnP (p : Char → Bool) (cs : List Char) :
    (cs.splitOnP p).flatten = cs.filter (fun c => !p c) := by
  induction cs with
  | nil => rfl
  | cons c cs ih =>
    by_cases h : p c
    · simp [List.splitOnP_cons, h, ih]
    · have hne := List.splitOnP_ne_nil p cs
      cases hsplit : cs.splitOnP p with
      | nil => exact absurd hsplit hne
      | cons t ts =>
        rw [hsplit] at ih
        simp only [List.flatten_cons] at ih
        simp [List.splitOnP_cons, h, hsplit, List.filter_cons, ← ih]

/-- No piece produced by `splitOnP` contains a separator character. -/
theorem splitOnP_sep_free (p : Char → Bool) (cs : List Char) :
    ∀ t ∈ cs.splitOnP p, ∀ c ∈ t, p c = false := by
  induction cs with
  | nil =>
    intro t ht
    simp only [List.splitOnP_nil, List.mem_singleton] at ht
    simp [ht]
  | cons c cs ih =>
    by_cases h : p c
    · simp only [List.splitOnP_cons, h, if_true]
      intro t ht
      rcases List.mem_cons.mp ht with h1 | h1
      · simp [h1]
      · exact ih t h1
    · have hne := List.splitOnP_ne_nil p cs
      cases hsplit : cs.splitOnP p with
      | nil => exact absurd hsplit hne
      | cons t0 ts =>
        simp only [List.splitOnP_cons, h, Bool.false_eq_true, if_false, hsplit,
          List.modifyHead]
        intro t ht
        rcases List.mem_cons.mp ht with h1 | h1
        · subst h1
          intro d hd
          rcases List.mem_cons.mp hd with h2 | h2
          · subst h2; simpa using h
          · exact ih t0 (by simp [hsplit]) d h2
        · exact ih t (by simp [hsplit, h1])

/-! ## String helpers -/

theorem stringEta (s : String) : String.mk s.data = s := by
  cases s
  rfl

theorem stringAppendCancelLeft {a b c : String} (h : a ++ b = a ++ c) : b = c := by
  have hd : a.data ++ b.data = a.data ++ c.data := by
    rw [← String.data_append, ← String.data_append, h]
  have := List.append_cancel_left hd
  calc b = String.mk b.data := (stringEta b).symm
    _ = String.mk c.data := by rw [this]
    _ = c := stringEta c

theorem stringLengthAppend (a b : String) : (a ++ b).length = a.length + b.length := by
  show (a ++ b).data.length = a.data.length + b.data.length
  rw [String.data_append, List.length_append]

/-! ## Error behaviour of token resolution -/

theorem resolveToken_eq_of_invalid (valid : String → Bool) (catalog : List License)
    (t : String) (h : valid t = false) :
    resolveToken valid catalog t = .error (.invalidId t) := by
  unfold resolveToken
  rw [h]
  simp

theorem resolveToken_eq_of_unsupported (valid : String → Bool) (catalog : List License)
    (t : String) (h : valid t = true)
    (hfind : catalog.find? (fun l => l.spdx == t) = none) :
    resolveToken valid catalog t = .error (.unsupported t) := by
  unfold resolveToken
  rw [h, hfind]
  simp

theorem resolveToken_eq_of_found (valid : String → Bool) (catalog : List License)
    (t : String) (l : License) (h : valid t = true)
    (hfind : catalog.find? (fun lic => lic.spdx == t) = some l) :
    resolveToken valid catalog t = .ok l := by
  unfold resolveToken
  rw [h, hfind]
  simp

/-- `resolveToken` can only produce the two advertised error kinds, and each
kind characterizes its cause: `invalidId` exactly when the token is not in
the reference list, `unsupported` exactly when it is in the reference list
but has no catalog entry.  Both errors name the offending token. -/
theorem resolveToken_error_characterization (valid : String → Bool)
    (catalog : List License) (t : String) :
    (resolveToken valid catalog t = .error (.invalidId t) ↔ valid t = false) ∧
    (resolveToken valid catalog t = .error (.unsupported t) ↔
      (valid t = true ∧ catalog.find? (fun l => l.spdx == t) = none)) ∧
    (∀ e : ParseError, resolveToken valid catalog t = .error e →
      e = .invalidId t ∨ e = .unsupported t) := by
  refine ⟨⟨?_, ?_⟩, ⟨?_, ?_⟩, ?_⟩
  · intro h
    cases hval : valid t with
    | false => rfl
    | true =>
      cases hfind : catalog.find? (fun l => l.spdx == t) with
      | none =>
        rw [resolveToken_eq_of_unsupported valid catalog t hval hfind] at h
        exact absurd h (by simp)
      | some l =>
        rw [resolveToken_eq_of_found valid catalog t l hval hfind] at h
        exact absurd h (by simp)
  · intro h
    exact resolveToken_eq_of_invalid valid catalog t h
  · intro h
    cases hval : valid t with
    | false =>
      rw [resolveToken_eq_of_invalid valid catalog t hval] at h
      exact absurd h (by simp)
    | true =>
      cases hfind : catalog.find? (fun l => l.spdx == t) with
      | none => exact ⟨rfl, rfl⟩
      | some l =>
        rw [resolveToken_eq_of_found valid catalog t l hval hfind] at h
        exact absurd h (by simp)
  · rintro ⟨h1, h2⟩
    exact resolveToken_eq_of_unsupported valid catalog t h1 h2
  · intro e he
    cases hval : valid t with
    | false =>
      rw [resolveToken_eq_of_invalid valid catalog t hval] at he
      left
      injection he with h
      rw [h]
    | true =>
      cases hfind : catalog.find? (fun l => l.spdx == t) with
      | none =>
        rw [resolveToken_eq_of_unsupported valid catalog t hval hfind] at he
        right
        injection he with h
        rw [h]
      | some l =>
        rw [resolveToken_eq_of_found valid catalog t l hval hfind] at he
        exact absurd he (by simp)

/-- `collect::<Result<_>>` semantics: the whole resolution fails with `e`
exactly when the token list decomposes as a prefix of resolvable tokens
followed by a token whose resolution fails with `e`; nothing after the
first failing token matters and no partial result is produced. -/
theorem resolveTokens_error_iff (valid : String → Bool) (catalog : List License)
    (ts : List String) (e : ParseError) :
    resolveTokens valid catalog ts = .error e ↔
      ∃ pre t post, ts = pre ++ t :: post ∧
        (∀ u ∈ pre, ∃ l, resolveToken valid catalog u = .ok l) ∧
        resolveToken valid catalog t = .error e := by
  induction ts with
  | nil =>
    simp only [resolveTokens]
    constructor
    · intro h
      exact absurd h (by simp)
    · rintro ⟨pre, t, post, habs, -, -⟩
      exact absurd habs (by simp)
  | cons t0 rest ih =>
    constructor
    · intro h
      simp only [resolveTokens] at h
      cases h0 : resolveToken valid catalog t0 with
      | error e0 =>
        rw [h0] at h
        refine ⟨[], t0, rest, by simp, by simp, ?_⟩
        simp only [Except.error.injEq] at h
        rw [h0, h]
      | ok l0 =>
        rw [h0] at h
        cases hrest : resolveTokens valid catalog rest with
        | error e1 =>
          rw [hrest] at h
          simp only [Except.error.injEq] at h
          subst h
          obtain ⟨pre, t, post, hdec, hpre, hfail⟩ := ih.mp hrest
          exact ⟨t0 :: pre, t, post, by simp [hdec], by
            intro u hu
            rcases List.mem_cons.mp hu with h1 | h1
            · exact ⟨l0, by rw [h1, h0]⟩
            · exact hpre u h1, hfail⟩
        | ok ls =>
          rw [hrest] at h
          exact absurd h (by simp)
    · rintro ⟨pre, t, post, hdec, hpre, hfail⟩
      cases pre with
      | nil =>
        simp only [List.nil_append] at hdec
        cases hdec
        simp [resolveTokens, hfail]
      | cons p0 pre' =>
        simp only [List.cons_append, List.cons.injEq] at hdec
        obtain ⟨h1, h2⟩ := hdec
        subst h1
        obtain ⟨l0, hl0⟩ := hpre t0 (by simp)
        have hrest : resolveTokens valid catalog rest = .error e :=
          ih.mpr ⟨pre', t, post, h2, fun u hu => hpre u (by simp [hu]), hfail⟩
        simp [resolveTokens, hl0, hrest]

/-! ## Lemmas about tokenization and operator stripping -/

theorem stripOperators_nil : stripOperators [] = [] := rfl

theorem stripOperators_cons_keep (t : String) (ts : List String)
    (h : isOperatorToken t = false) :
    stripOperators (t :: ts) = t :: stripOperators ts := by
  simp [stripOperators, h]

theorem stripOperators_cons_drop (t : String) (ts : List String)
    (h : isOperatorToken t = true) :
    stripOperators (t :: ts) = stripOperators ts := by
  simp [stripOperators, h]

/-- The operator-stripping step is a plain filter: a token survives exactly
when it is not one of the operator keywords, and order is preserved. -/
theorem stripOperators_eq_filter (ts : List String) :
    stripOperators ts = ts.filter (fun t => !isOperatorToken t) := by
  induction ts with
  | nil => rfl
  | cons t ts ih =>
    cases h : isOperatorToken t with
    | true => rw [stripOperators_cons_drop t ts h, List.filter_cons_of_neg (by simp [h]), ih]
    | false => rw [stripOperators_cons_keep t ts h, List.filter_cons_of_pos (by simp [h]), ih]

/-- A token is an operator keyword exactly when it is `WITH`, `OR` or
`AND`. -/
theorem isOperatorToken_iff (t : String) :
    isOperatorToken t = true ↔ (t = "WITH" ∨ t = "OR" ∨ t = "AND") := by
  unfold isOperatorToken
  simp [or_assoc]

/-- Tokenizing `a/b` when neither part contains a slash gives the two
parts. -/
theorem tokenize_slash_pair (a b : String)
    (ha : ∀ c ∈ a.data, (c == '/') = false)
    (hb : ∀ c ∈ b.data, (c == '/') = false) :
    tokenize (a ++ "/" ++ b) = [a, b] := by
  have hdata : (a ++ "/" ++ b).data = a.data ++ '/' :: b.data := by
    rw [String.data_append, String.data_append]
    simp
  have hcontains : (a ++ "/" ++ b).data.contains '/' = true := by
    rw [hdata]
    simp
  have hsplit : (a.data ++ '/' :: b.data).splitOn '/' = [a.data, b.data] := by
    rw [List.splitOn, List.splitOnP_first _ _
      (fun x hx => by simpa using ha x hx) '/' (by simp)]
    rw [List.splitOnP_eq_single _ _ (fun x hx => by simpa using hb x hx)]
  rw [tokenize, if_pos hcontains, hdata, hsplit]
  simp [stringEta]

/-- Tokenizing `a ++ " " ++ op ++ " " ++ b` for whitespace-free nonempty
parts gives the three tokens. -/
theorem tokenize_ws_triple (a op b : String)
    (ha0 : a.data ≠ []) (hop0 : op.data ≠ []) (hb0 : b.data ≠ [])
    (ha : ∀ c ∈ a.data, (c == '/') = false ∧ rustIsWhitespace c = false)
    (hop : ∀ c ∈ op.data, (c == '/') = false ∧ rustIsWhitespace c = false)
    (hb : ∀ c ∈ b.data, (c == '/') = false ∧ rustIsWhitespace c = false) :
    tokenize (a ++ " " ++ op ++ " " ++ b) = [a, op, b] := by
  have hdata : (a ++ " " ++ op ++ " " ++ b).data =
      a.data ++ ' ' :: (op.data ++ ' ' :: b.data) := by
    rw [String.data_append, String.data_append, String.data_append,
      String.data_append]
    show a.data ++ [' '] ++ op.data ++ [' '] ++ b.data = _
    simp
  have hnoslash : ∀ c ∈ a.data ++ ' ' :: (op.data ++ ' ' :: b.data),
      (c == '/') = false := by
    intro c hc
    simp only [List.mem_append, List.mem_cons] at hc
    rcases hc with h1 | h1 | h1 | h1 | h1
    · exact (ha c h1).1
    · rw [h1]; decide
    · exact (hop c h1).1
    · rw [h1]; decide
    · exact (hb c h1).1
  have hcontains : (a ++ " " ++ op ++ " " ++ b).data.contains '/' = false := by
    rw [hdata, List.contains_eq_any_beq]
    simp only [List.any_eq_false]
    intro c hc
    have hcs := hnoslash c hc
    have hne : c ≠ '/' := by
      intro h
      rw [h] at hcs
      simp at hcs
    simp only [beq_iff_eq]
    exact fun h => hne h.symm
  have hsplit : (a.data ++ ' ' :: (op.data ++ ' ' :: b.data)).splitOnP rustIsWhitespace
      = [a.data, op.data, b.data] := by
    rw [List.splitOnP_first _ _ (fun x hx => by simp [(ha x hx).2]) ' ' (by decide)]
    rw [List.splitOnP_first _ _ (fun x hx => by simp [(hop x hx).2]) ' ' (by decide)]
    rw [List.splitOnP_eq_single _ _ (fun x hx => by simp [(hb x hx).2])]
  rw [tokenize, if_neg (by rw [hcontains]; simp), hdata, hsplit]
  simp only [List.filter]
  rw [decide_eq_true ha0, decide_eq_true hop0, decide_eq_true hb0]
  simp [stringEta]

/-- Parsing an expression that joins two well-shaped resolvable IDs with
any of the three separator styles yields exactly the two resolved licenses
in left-to-right order, for an arbitrary reference list and catalog. -/
theorem parse_spdx_pair (valid : String → Bool) (catalog : List License)
    (a b : String) (la lb : License)
    (ha0 : a.data ≠ []) (hb0 : b.data ≠ [])
    (ha : ∀ c ∈ a.data, (c == '/') = false ∧ rustIsWhitespace c = false)
    (hb : ∀ c ∈ b.data, (c == '/') = false ∧ rustIsWhitespace c = false)
    (haop : isOperatorToken a = false) (hbop : isOperatorToken b = false)
    (hva : valid a = true) (hvb : valid b = true)
    (hfa : catalog.find? (fun l => l.spdx == a) = some la)
    (hfb : catalog.find? (fun l => l.spdx == b) = some lb) :
    parse_spdx valid catalog (a ++ "/" ++ b) = .ok [la, lb] ∧
    parse_spdx valid catalog (a ++ " OR " ++ b) = .ok [la, lb] ∧
    parse_spdx valid catalog (a ++ " AND " ++ b) = .ok [la, lb] := by
  have hresolve : resolveTokens valid catalog [a, b] = .ok [la, lb] := by
    simp [resolveTokens, resolveToken_eq_of_found valid catalog a la hva hfa,
      resolveToken_eq_of_found valid catalog b lb hvb hfb]
  refine ⟨?_, ?_, ?_⟩
  · rw [parse_spdx, tokenize_slash_pair a b (fun c hc => (ha c hc).1)
      (fun c hc => (hb c hc).1)]
    rw [stripOperators_cons_keep _ _ haop, stripOperators_cons_keep _ _ hbop,
      stripOperators_nil]
    exact hresolve
  · have hexpr : a ++ " OR " ++ b = a ++ " " ++ "OR" ++ " " ++ b := by
      apply String.ext
      rw [String.data_append, String.data_append, String.data_append,
        String.data_append, String.data_append]
      simp
    rw [parse_spdx, hexpr, tokenize_ws_triple a "OR" b ha0 (by decide) hb0 ha
      (by decide) hb]
    rw [stripOperators_cons_keep _ _ haop, stripOperators_cons_drop _ _ (by decide),
      stripOperators_cons_keep _ _ hbop, stripOperators_nil]
    exact hresolve
  · have hexpr : a ++ " AND " ++ b = a ++ " " ++ "AND" ++ " " ++ b := by
      apply String.ext
      rw [String.data_append, String.data_append, String.data_append,
        String.data_append, String.data_append]
      simp
    rw [parse_spdx, hexpr, tokenize_ws_triple a "AND" b ha0 (by decide) hb0 ha
      (by decide) hb]
    rw [stripOperators_cons_keep _ _ haop, stripOperators_cons_drop _ _ (by decide),
      stripOperators_cons_keep _ _ hbop, stripOperators_nil]
    exact hresolve

/-! ## Correctness of the git-style author matcher -/

theorem gitSplit_sound (t : List Char) :
    ∀ a, gitSplit t = some a → GitSplitAt t a := by
  induction t with
  | nil => intro a h; exact absurd h (by simp [gitSplit])
  | cons c cs ih =>
    intro a h
    cases hcs : gitSplit cs with
    | some b =>
      rw [gitSplit, hcs] at h
      injection h with h
      obtain ⟨u, hu, hgt⟩ := ih b hcs
      exact ⟨u, by rw [← h, hu]; rfl, hgt⟩
    | none =>
      rw [gitSplit, hcs] at h
      by_cases hif : (c == ' ' && emailTail cs) = true
      · rw [if_pos hif] at h
        injection h with h
        subst h
        simp only [Bool.and_eq_true, beq_iff_eq] at hif
        obtain ⟨hc, htail⟩ := hif
        subst hc
        cases cs with
        | nil => simp [emailTail] at htail
        | cons c1 u =>
          simp only [emailTail, Bool.and_eq_true, beq_iff_eq] at htail
          obtain ⟨hc1, hcont⟩ := htail
          subst hc1
          exact ⟨u, by simp, by simpa using hcont⟩
      · rw [if_neg hif] at h
        exact absurd h (by simp)

theorem gitSplit_cons_none {c : Char} {cs : List Char} {a : List Char}
    (hcs : gitSplit cs = none) (h : gitSplit (c :: cs) = some a) : a = [] := by
  rw [gitSplit, hcs] at h
  by_cases hif : (c == ' ' && emailTail cs) = true
  · rw [if_pos hif] at h
    injection h with h
    exact h.symm
  · rw [if_neg hif] at h
    exact absurd h (by simp)

theorem gitSplit_complete (t : List Char) :
    ∀ a, GitSplitAt t a → (gitSplit t).isSome = true := by
  induction t with
  | nil =>
    rintro a ⟨u, ht, -⟩
    cases a with
    | nil => exact absurd ht (by simp)
    | cons c' a' => exact absurd ht (by simp)
  | cons c cs ih =>
    rintro a ⟨u, ht, hgt⟩
    cases a with
    | nil =>
      simp only [List.nil_append] at ht
      injection ht with h1 h2
      cases hcs : gitSplit cs with
      | some b => rw [gitSplit, hcs]; simp
      | none =>
        subst h1
        subst h2
        rw [gitSplit, hcs]
        have hif : (' ' == ' ' && emailTail ('<' :: u)) = true := by
          simpa [emailTail] using hgt
        rw [hif]
        rfl
    | cons c' a' =>
      simp only [List.cons_append] at ht
      injection ht with h1 h2
      have hrec := ih a' ⟨u, h2, hgt⟩
      cases hcs : gitSplit cs with
      | none => rw [hcs] at hrec; exact absurd hrec (by simp)
      | some b => rw [gitSplit, hcs]; simp

theorem gitSplit_max (t : List Char) :
    ∀ a, gitSplit t = some a → ∀ a', GitSplitAt t a' → a'.length ≤ a.length := by
  induction t with
  | nil => intro a h; exact absurd h (by simp [gitSplit])
  | cons c cs ih =>
    intro a h a' hsplit
    obtain ⟨u, ht, hgt⟩ := hsplit
    cases hcs : gitSplit cs with
    | some b =>
      have ha : a = c :: b := by
        rw [gitSplit, hcs] at h
        injection h with h
        exact h.symm
      subst ha
      cases a' with
      | nil => simp
      | cons c' a'' =>
        simp only [List.cons_append] at ht
        injection ht with h1 h2
        have : a''.length ≤ b.length := ih b hcs a'' ⟨u, h2, hgt⟩
        simpa using this
    | none =>
      have ha : a = [] := gitSplit_cons_none hcs h
      subst ha
      cases a' with
      | nil => simp
      | cons c' a'' =>
        simp only [List.cons_append] at ht
        injection ht with h1 h2
        have hrec : (gitSplit cs).isSome = true := gitSplit_complete cs a'' ⟨u, h2, hgt⟩
        rw [hcs] at hrec
        exact absurd hrec (by simp)
theorem gitMatchLine_iff (t a : List Char) :
    gitMatchLine t = some a ↔ GitGreedyName t a := by
  constructor
  · intro h
    unfold gitMatchLine at h
    cases hsp : gitSplit t with
    | none => rw [hsp] at h; exact absurd h (by simp)
    | some b =>
      rw [hsp] at h
      dsimp only at h
      by_cases hb : b = []
      · rw [if_pos hb] at h
        exact absurd h (by simp)
      · rw [if_neg hb] at h
        injection h with h
        subst h
        refine ⟨⟨hb, gitSplit_sound t b hsp⟩, ?_⟩
        intro a' ha'
        exact gitSplit_max t b hsp a' ha'.2
  · rintro ⟨⟨hne, hat⟩, hmax⟩
    have hsome := gitSplit_complete t a hat
    cases hsp : gitSplit t with
    | none => rw [hsp] at hsome; exact absurd hsome (by simp)
    | some b =>
      have hb_at : GitSplitAt t b := gitSplit_sound t b hsp
      have hab : a.length ≤ b.length := gitSplit_max t b hsp a hat
      have hbne : b ≠ [] := by
        intro hbnil
        subst hbnil
        simp only [List.length_nil, Nat.le_zero, List.length_eq_zero] at hab
        exact hne hab
      have hba : b.length ≤ a.length := hmax b ⟨hbne, hb_at⟩
      have hlen : a.length = b.length := Nat.le_antisymm hab hba
      obtain ⟨ua, hta, -⟩ := hat
      obtain ⟨ub, htb, -⟩ := hb_at
      have : a = b := by
        have := hta.symm.trans htb
        exact (List.append_inj this hlen).1
      subst this
      simp [gitMatchLine, hsp, hne]

/-- For a single-line author string (the regex `.` never matches `\n`, so
this is the only case the program meets), the embedded matcher returns
exactly the greedy name capture of the pattern. -/
theorem parse_git_style_author_iff (s : String) (hnl : '\n' ∉ s.data) (n : String) :
    parse_git_style_author s = some n ↔ GitGreedyName s.data n.data := by
  have hlines : linesOf s.data = [s.data] := by
    rw [linesOf, List.splitOn]
    refine List.splitOnP_eq_single _ _ ?_
    intro x hx
    simp only [beq_iff_eq]
    intro hcon
    exact hnl (hcon ▸ hx)
  have hfind : ∀ r, (linesOf s.data).findSome? gitMatchLine = r ↔ gitMatchLine s.data = r := by
    intro r
    rw [hlines]
    cases h : gitMatchLine s.data <;> simp [List.findSome?_cons, h]
  constructor
  · intro h
    rw [parse_git_style_author] at h
    cases hm : gitMatchLine s.data with
    | none =>
      rw [((hfind _).mpr hm : _ = none)] at h
      exact absurd h (by simp)
    | some b =>
      rw [((hfind _).mpr hm : _ = some b)] at h
      have h2 : some (String.mk b) = some n := h
      injection h2 with h2
      have hbn : b = n.data := by rw [← h2]
      rw [hbn] at hm
      exact (gitMatchLine_iff s.data n.data).mp hm
  · intro h
    have hm : gitMatchLine s.data = some n.data := (gitMatchLine_iff s.data n.data).mpr h
    rw [parse_git_style_author, ((hfind _).mpr hm : _ = some n.data)]
    show some (String.mk n.data) = some n
    rw [stringEta]

/-- `parse_author_names` on a nonempty list maps each author through the
git-style matcher, keeping unmatched entries unchanged. -/
theorem parse_author_names_of_ne_nil (authors : List String) (h : authors ≠ []) :
    parse_author_names authors =
      .ok (authors.map fun author => (parse_git_style_author author).getD author) := by
  have hfun : (fun author => match parse_git_style_author author with
      | some name => name
      | none => author) =
      (fun author => (parse_git_style_author author).getD author) := by
    funext author
    cases parse_git_style_author author <;> rfl
  rw [parse_author_names, if_neg (by simpa using h), hfun]

/-- `parse_author_names` fails (necessarily with the `noAuthors` error)
exactly on the empty author list. -/
theorem parse_author_names_error_iff (authors : List String) :
    (∃ e, parse_author_names authors = .error e) ↔ authors = [] := by
  constructor
  · rintro ⟨e, he⟩
    by_contra hne
    rw [parse_author_names_of_ne_nil authors hne] at he
    exact absurd he (by simp)
  · rintro rfl
    exact ⟨.noAuthors, rfl⟩

/-! ## Lemmas about the key order and the `BTreeMap` model -/

theorem char_eq_of_toNat_eq {a b : Char} (h : a.toNat = b.toNat) : a = b := by
  cases a with
  | mk av ap =>
    cases b with
    | mk bv bp =>
      have h2 : av.toNat = bv.toNat := h
      have h3 : av = bv := by
        cases av with
        | mk afin =>
          cases bv with
          | mk bfin =>
            have h4 : afin = bfin := BitVec.eq_of_toNat_eq h2
            rw [h4]
      subst h3
      rfl

theorem charListLt_irrefl (l : List Char) : charListLt l l = false := by
  induction l with
  | nil => rfl
  | cons a as ih =>
    rw [charListLt]
    rw [if_neg (lt_irrefl a.toNat), if_neg (lt_irrefl a.toNat)]
    exact ih

theorem charListLt_cons_iff (x y : Char) (xs ys : List Char) :
    charListLt (x :: xs) (y :: ys) = true ↔
      (x.toNat < y.toNat ∨ (x.toNat = y.toNat ∧ charListLt xs ys = true)) := by
  rw [charListLt]
  by_cases h1 : x.toNat < y.toNat
  · simp [h1]
  · by_cases h2 : y.toNat < x.toNat
    · rw [if_neg h1, if_pos h2]
      constructor
      · intro h
        exact absurd h (by simp)
      · rintro (h | ⟨he, -⟩)
        · exact absurd h h1
        · omega
    · rw [if_neg h1, if_neg h2]
      constructor
      · intro h
        exact Or.inr ⟨by omega, h⟩
      · rintro (h | ⟨-, h⟩)
        · exact absurd h h1
        · exact h

theorem charListLt_nil_right (b : List Char) : charListLt b [] = false := by
  cases b <;> rfl

theorem charListLt_trans (a b c : List Char) (hab : charListLt a b = true)
    (hbc : charListLt b c = true) : charListLt a c = true := by
  induction a generalizing b c with
  | nil =>
    cases c with
    | nil =>
      rw [charListLt_nil_right b] at hbc
      exact absurd hbc (by simp)
    | cons z zs => rfl
  | cons x xs ih =>
    cases b with
    | nil =>
      rw [charListLt_nil_right (x :: xs)] at hab
      exact absurd hab (by simp)
    | cons y ys =>
      cases c with
      | nil =>
        rw [charListLt_nil_right (y :: ys)] at hbc
        exact absurd hbc (by simp)
      | cons z zs =>
        rw [charListLt_cons_iff] at hab hbc ⊢
        rcases hab with h1 | ⟨h1, h1t⟩ <;> rcases hbc with h2 | ⟨h2, h2t⟩
        · exact Or.inl (by omega)
        · exact Or.inl (by omega)
        · exact Or.inl (by omega)
        · exact Or.inr ⟨by omega, ih ys zs h1t h2t⟩

theorem charListLt_connex (a b : List Char) (h : a ≠ b) :
    charListLt a b = true ∨ charListLt b a = true := by
  induction a generalizing b with
  | nil =>
    cases b with
    | nil => exact absurd rfl h
    | cons y ys => exact Or.inl rfl
  | cons x xs ih =>
    cases b with
    | nil => exact Or.inr rfl
    | cons y ys =>
      by_cases hxy : x.toNat < y.toNat
      · exact Or.inl ((charListLt_cons_iff x y xs ys).mpr (Or.inl hxy))
      · by_cases hyx : y.toNat < x.toNat
        · exact Or.inr ((charListLt_cons_iff y x ys xs).mpr (Or.inl hyx))
        · have hexy : x = y := char_eq_of_toNat_eq (by omega)
          subst hexy
          have htail : xs ≠ ys := by
            intro hcon
            exact h (by rw [hcon])
          rcases ih ys htail with h1 | h1
          · exact Or.inl ((charListLt_cons_iff x x xs ys).mpr (Or.inr ⟨rfl, h1⟩))
          · exact Or.inr ((charListLt_cons_iff x x ys xs).mpr (Or.inr ⟨rfl, h1⟩))

theorem strLt_irrefl (a : String) : strLt a a = false :=
  charListLt_irrefl a.data

theorem strLt_trans (a b c : String) (hab : strLt a b = true)
    (hbc : strLt b c = true) : strLt a c = true :=
  charListLt_trans a.data b.data c.data hab hbc

theorem strLt_connex (a b : String) (h : a ≠ b) :
    strLt a b = true ∨ strLt b a = true := by
  refine charListLt_connex a.data b.data ?_
  intro hcon
  exact h ((stringEta a).symm.trans (by rw [hcon, stringEta]))

theorem mem_keys_btreeInsert (k v k' : String) (m : List (String × String)) :
    k' ∈ keysOf (btreeInsert k v m) ↔ k' = k ∨ k' ∈ keysOf m := by
  induction m with
  | nil => simp [btreeInsert, keysOf]
  | cons hd tl ih =>
    obtain ⟨hk, hv⟩ := hd
    by_cases h1 : strLt k hk = true
    · simp [btreeInsert, h1, keysOf]
    · by_cases h2 : k = hk
      · subst h2
        simp [btreeInsert, h1, keysOf]
      · simp only [btreeInsert, if_neg h1, if_neg h2, keysOf, List.map_cons,
          List.mem_cons] at *
        rw [ih]
        tauto

theorem mem_btreeInsert (k v : String) (m : List (String × String)) :
    ∀ kv ∈ btreeInsert k v m, kv = (k, v) ∨ kv ∈ m := by
  induction m with
  | nil => simp [btreeInsert]
  | cons hd tl ih =>
    obtain ⟨hk, hv⟩ := hd
    intro kv hkv
    by_cases h1 : strLt k hk = true
    · simp only [btreeInsert, if_pos h1, List.mem_cons] at hkv
      rcases hkv with h | h | h
      · exact Or.inl h
      · exact Or.inr (by simp [h])
      · exact Or.inr (by simp [h])
    · by_cases h2 : k = hk
      · simp only [btreeInsert, if_neg h1, if_pos h2, List.mem_cons] at hkv
        rcases hkv with h | h
        · exact Or.inl h
        · exact Or.inr (by simp [h])
      · simp only [btreeInsert, if_neg h1, if_neg h2, List.mem_cons] at hkv
        rcases hkv with h | h
        · exact Or.inr (by simp [h])
        · rcases ih kv h with h3 | h3
          · exact Or.inl h3
          · exact Or.inr (by simp [h3])

theorem mapLookup_btreeInsert (k v k' : String) (m : List (String × String)) :
    mapLookup k' (btreeInsert k v m) =
      if k' = k then some v else mapLookup k' m := by
  induction m with
  | nil => simp [btreeInsert, mapLookup]
  | cons hd tl ih =>
    obtain ⟨hk, hv⟩ := hd
    by_cases h1 : strLt k hk = true
    · simp [btreeInsert, h1, mapLookup]
    · by_cases h2 : k = hk
      · subst h2
        by_cases h3 : k' = k
        · simp [btreeInsert, h1, mapLookup, h3]
        · simp [btreeInsert, h1, mapLookup, h3]
      · by_cases h3 : k' = hk
        · subst h3
          have hne : ¬ k' = k := fun hcon => h2 hcon.symm
          simp [btreeInsert, h1, h2, mapLookup, hne]
        · simp [btreeInsert, h1, h2, mapLookup, h3, ih]

theorem btreeInsert_sorted (k v : String) (m : List (String × String))
    (h : SortedKeys m) : SortedKeys (btreeInsert k v m) := by
  induction m with
  | nil => simp [btreeInsert, SortedKeys]
  | cons hd tl ih =>
    obtain ⟨hk, hv⟩ := hd
    rw [SortedKeys, List.pairwise_cons] at h
    obtain ⟨hhd, htl⟩ := h
    by_cases h1 : strLt k hk = true
    · rw [SortedKeys]
      simp only [btreeInsert, if_pos h1]
      rw [List.pairwise_cons]
      refine ⟨?_, ?_⟩
      · intro kv hkv
        rcases List.mem_cons.mp hkv with h | h
        · rw [h]
          exact h1
        · exact strLt_trans _ _ _ h1 (hhd kv h)
      · rw [List.pairwise_cons]
        exact ⟨hhd, htl⟩
    · by_cases h2 : k = hk
      · rw [SortedKeys]
        simp only [btreeInsert, if_neg h1, if_pos h2]
        rw [List.pairwise_cons]
        refine ⟨?_, htl⟩
        intro kv hkv
        show strLt k kv.1 = true
        rw [h2]
        exact hhd kv hkv
      · rw [SortedKeys]
        simp only [btreeInsert, if_neg h1, if_neg h2]
        rw [List.pairwise_cons]
        refine ⟨?_, ih htl⟩
        intro kv hkv
        rcases mem_btreeInsert k v tl kv hkv with h | h
        · rw [h]
          rcases strLt_connex k hk h2 with h3 | h3
          · exact absurd h3 h1
          · exact h3
        · exact hhd kv h

theorem keysOf_nodup (m : List (String × String)) (h : SortedKeys m) :
    (keysOf m).Nodup := by
  induction m with
  | nil => simp [keysOf]
  | cons hd tl ih =>
    rw [SortedKeys, List.pairwise_cons] at h
    obtain ⟨hhd, htl⟩ := h
    simp only [keysOf, List.map_cons, List.nodup_cons]
    refine ⟨?_, ih htl⟩
    intro hmem
    simp only [keysOf, List.mem_map] at hmem
    obtain ⟨kv, hkv, hfst⟩ := hmem
    have hlt := hhd kv hkv
    rw [hfst] at hlt
    rw [strLt_irrefl] at hlt
    exact absurd hlt (by simp)

theorem mapLookup_eq_none_iff (k : String) (m : List (String × String)) :
    mapLookup k m = none ↔ k ∉ keysOf m := by
  induction m with
  | nil => simp [mapLookup, keysOf]
  | cons hd tl ih =>
    obtain ⟨hk, hv⟩ := hd
    by_cases h : k = hk
    · subst h
      simp [mapLookup, keysOf]
    · simp [mapLookup, keysOf, h, ih]

theorem mapLookup_isSome_iff (k : String) (m : List (String × String)) :
    (∃ v, mapLookup k m = some v) ↔ k ∈ keysOf m := by
  constructor
  · rintro ⟨v, hv⟩
    by_contra hmem
    rw [← mapLookup_eq_none_iff] at hmem
    rw [hmem] at hv
    exact absurd hv (by simp)
  · intro hmem
    cases hl : mapLookup k m with
    | none => exact absurd ((mapLookup_eq_none_iff k m).mp hl) (by simp [hmem])
    | some v => exact ⟨v, rfl⟩
/-! ## Lemmas about the rendering loop -/

theorem renderAll_ok_keys (hb : Handlebars) (g : List License) (year : Int)
    (authors : List String) (total : Nat) :
    ∀ (ls : List License) (acc m : List (String × String)),
      renderAll hb g year authors total acc ls = .ok m →
      ∀ k, k ∈ keysOf m ↔ (k ∈ keysOf acc ∨ ∃ l ∈ ls, k = nameOf total l) := by
  intro ls
  induction ls with
  | nil =>
    intro acc m h k
    rw [renderAll] at h
    injection h with h
    subst h
    simp
  | cons l rest ih =>
    intro acc m h k
    rw [renderAll] at h
    cases hr : renderOne hb g year authors l with
    | error e =>
      rw [hr] at h
      dsimp only at h
      exact absurd h (by simp)
    | ok contents =>
      rw [hr] at h
      dsimp only at h
      have hiter := ih (btreeInsert (nameOf total l) contents acc) m h k
      rw [hiter, mem_keys_btreeInsert]
      constructor
      · rintro ((h1 | h1) | ⟨l', hl', hn⟩)
        · exact Or.inr ⟨l, by simp, h1⟩
        · exact Or.inl h1
        · exact Or.inr ⟨l', by simp [hl'], hn⟩
      · rintro (h1 | ⟨l', hl', hn⟩)
        · exact Or.inl (Or.inr h1)
        · rcases List.mem_cons.mp hl' with h2 | h2
          · subst h2
            exact Or.inl (Or.inl hn)
          · exact Or.inr ⟨l', h2, hn⟩

theorem renderAll_sorted (hb : Handlebars) (g : List License) (year : Int)
    (authors : List String) (total : Nat) :
    ∀ (ls : List License) (acc m : List (String × String)), SortedKeys acc →
      renderAll hb g year authors total acc ls = .ok m → SortedKeys m := by
  intro ls
  induction ls with
  | nil =>
    intro acc m hs h
    rw [renderAll] at h
    injection h with h
    subst h
    exact hs
  | cons l rest ih =>
    intro acc m hs h
    rw [renderAll] at h
    cases hr : renderOne hb g year authors l with
    | error e =>
      rw [hr] at h
      dsimp only at h
      exact absurd h (by simp)
    | ok contents =>
      rw [hr] at h
      dsimp only at h
      exact ih _ m (btreeInsert_sorted _ _ _ hs) h

theorem renderAll_mem (hb : Handlebars) (g : List License) (year : Int)
    (authors : List String) (total : Nat) :
    ∀ (ls : List License) (acc m : List (String × String)),
      renderAll hb g year authors total acc ls = .ok m →
      ∀ kv ∈ m, kv ∈ acc ∨ ∃ l ∈ ls, kv.1 = nameOf total l ∧
        renderOne hb g year authors l = .ok kv.2 := by
  intro ls
  induction ls with
  | nil =>
    intro acc m h kv hkv
    rw [renderAll] at h
    injection h with h
    subst h
    exact Or.inl hkv
  | cons l rest ih =>
    intro acc m h kv hkv
    rw [renderAll] at h
    cases hr : renderOne hb g year authors l with
    | error e =>
      rw [hr] at h
      dsimp only at h
      exact absurd h (by simp)
    | ok contents =>
      rw [hr] at h
      dsimp only at h
      rcases ih _ m h kv hkv with h1 | ⟨l', hl', hn, hre⟩
      · rcases mem_btreeInsert _ _ _ kv h1 with h2 | h2
        · refine Or.inr ⟨l, by simp, ?_, ?_⟩
          · rw [h2]
          · rw [h2]
            exact hr
        · exact Or.inl h2
      · exact Or.inr ⟨l', by simp [hl'], hn, hre⟩

theorem renderAll_lookup_last (hb : Handlebars) (g : List License) (year : Int)
    (authors : List String) (total : Nat) :
    ∀ (ls : List License) (acc m : List (String × String)),
      renderAll hb g year authors total acc ls = .ok m →
      ∀ k, (match ls.reverse.find? (fun l => nameOf total l == k) with
        | some l => ∃ c, renderOne hb g year authors l = .ok c ∧
            mapLookup k m = some c
        | none => mapLookup k m = mapLookup k acc) := by
  intro ls
  induction ls with
  | nil =>
    intro acc m h k
    rw [renderAll] at h
    injection h with h
    subst h
    simp
  | cons l rest ih =>
    intro acc m h k
    rw [renderAll] at h
    cases hr : renderOne hb g year authors l with
    | error e =>
      rw [hr] at h
      dsimp only at h
      exact absurd h (by simp)
    | ok contents =>
      rw [hr] at h
      dsimp only at h
      have hiter := ih _ m h k
      rw [List.reverse_cons, List.find?_append]
      cases hf : rest.reverse.find? (fun l' => nameOf total l' == k) with
      | some l' =>
        rw [hf] at hiter
        dsimp only [Option.or]
        exact hiter
      | none =>
        rw [hf] at hiter
        rw [mapLookup_btreeInsert] at hiter
        by_cases hk : nameOf total l = k
        · have hfind : List.find? (fun l' => nameOf total l' == k) [l] = some l := by
            rw [List.find?_cons_of_pos _ (by simp [hk])]
          rw [hfind]
          dsimp only [Option.or]
          refine ⟨contents, hr, ?_⟩
          rw [hiter, if_pos hk.symm]
        · have hfind : List.find? (fun l' => nameOf total l' == k) [l] = none := by
            rw [List.find?_cons_of_neg _ (by simp [hk]), List.find?_nil]
          rw [hfind]
          dsimp only [Option.or]
          rw [hiter, if_neg (fun hcon => hk hcon.symm)]

/-! ## Helpers for the rendering claims -/

theorem nameOf_of_ne_one (total : Nat) (l : License) (h : total ≠ 1) :
    nameOf total l = "LICENSE-" ++ l.identifier := by
  rw [nameOf, if_neg h]

theorem license_dash_ne_LICENSE (id : String) :
    ("LICENSE-" ++ id) ≠ "LICENSE" := by
  intro h
  have hlen := congrArg String.length h
  rw [stringLengthAppend] at hlen
  rw [show ("LICENSE-" : String).length = 8 from rfl,
    show ("LICENSE" : String).length = 7 from rfl] at hlen
  omega

/-- A successful `render_license_text` needs every catalog template to
compile and comes from a successful rendering loop over an empty
accumulator. -/
theorem render_ok_inv (hb : Handlebars) (globalLicenses : List License)
    (year : Int) (licenses : List License) (authors : List String)
    (m : List (String × String))
    (h : render_license_text hb globalLicenses year licenses authors = .ok m) :
    globalLicenses.all (fun l => hb.compileOk l.text) = true ∧
    renderAll hb globalLicenses year authors licenses.length [] licenses =
      .ok m := by
  unfold render_license_text at h
  by_cases hall : globalLicenses.all (fun l => hb.compileOk l.text) = true
  · rw [if_pos hall] at h
    refine ⟨hall, ?_⟩
    cases hra : renderAll hb globalLicenses year authors licenses.length []
        licenses with
    | ok m' =>
      rw [hra] at h
      dsimp only at h
      injection h with h
      rw [h]
    | error e =>
      rw [hra] at h
      dsimp only at h
      exact absurd h (by simp)
  · rw [if_neg hall] at h
    exact absurd h (by simp)

/-! ## The claims -/

/-- C2: for every expression, `parse_spdx` fails as a whole at the first
unresolvable token with no partial results (it returns an error exactly when
the stripped token list splits into a fully resolvable prefix followed by
the failing token, whose resolution alone determines the error), and the
error kind distinguishes the two causes and names the offending token: a
token outside the SPDX reference list gives the `invalidId` error, a token
in the reference list without a catalog entry gives the distinct
`unsupported` error. -/
theorem C2_first_error_characterization (valid : String → Bool)
    (catalog : List License) (expr : String) :
    (∀ e, parse_spdx valid catalog expr = .error e ↔
      ∃ pre t post, stripOperators (tokenize expr) = pre ++ t :: post ∧
        (∀ u ∈ pre, ∃ l, resolveToken valid catalog u = .ok l) ∧
        resolveToken valid catalog t = .error e) ∧
    (∀ t, (resolveToken valid catalog t = .error (.invalidId t) ↔
        valid t = false) ∧
      (resolveToken valid catalog t = .error (.unsupported t) ↔
        (valid t = true ∧ catalog.find? (fun l => l.spdx == t) = none)) ∧
      (∀ e, resolveToken valid catalog t = .error e →
        e = .invalidId t ∨ e = .unsupported t)) :=
  ⟨fun e => resolveTokens_error_iff valid catalog (stripOperators (tokenize expr)) e,
   fun t => resolveToken_error_characterization valid catalog t⟩

theorem C2_witness :
    parse_spdx is_valid_spdx_id LICENSES "foobar" =
      .error (.invalidId "foobar") ∧
    parse_spdx is_valid_spdx_id LICENSES "Zlib" =
      .error (.unsupported "Zlib") := by
  constructor
  · exact ((C2_first_error_characterization is_valid_spdx_id LICENSES
      "foobar").1 (.invalidId "foobar")).mpr
      ⟨[], "foobar", [], by decide, by simp, rfl⟩
  · exact ((C2_first_error_characterization is_valid_spdx_id LICENSES
      "Zlib").1 (.unsupported "Zlib")).mpr
      ⟨[], "Zlib", [], by decide, by simp, rfl⟩

/-- C3: the expressions `MIT/Apache-2.0` and `MIT OR Apache-2.0` parse to
identical results (same entries, same order, same success/failure outcome)
for every reference list and catalog; on the modelled catalog both succeed
with the MIT and Apache-2.0 entries in that order. -/
theorem C3_separator_roundtrip :
    (∀ (valid : String → Bool) (catalog : List License),
      parse_spdx valid catalog "MIT/Apache-2.0" =
        parse_spdx valid catalog "MIT OR Apache-2.0") ∧
    parse_spdx is_valid_spdx_id LICENSES "MIT/Apache-2.0" =
      .ok [mitLicense, apacheLicense] ∧
    parse_spdx is_valid_spdx_id LICENSES "MIT OR Apache-2.0" =
      .ok [mitLicense, apacheLicense] := by
  refine ⟨?_, rfl, rfl⟩
  intro valid catalog
  rw [parse_spdx, parse_spdx]
  have htok : stripOperators (tokenize "MIT/Apache-2.0") =
      stripOperators (tokenize "MIT OR Apache-2.0") := by decide
  rw [htok]

/-- C4: tokenization is dual-mode and operator-stripping.  If the
expression contains a `/`, it is split on `/` (the pieces are slash-free
and interleaving `/` back recovers the expression); otherwise it is split
on whitespace (the tokens are the nonempty whitespace-free pieces, and
their concatenation is exactly the non-whitespace characters in order).
Afterwards exactly the tokens `WITH`, `OR` and `AND` are discarded, all
others kept in order. -/
theorem C4_tokenization (expr : String) (ts : List String) :
    (expr.data.contains '/' = true →
      tokenize expr = (expr.data.splitOn '/').map (fun t => String.mk t)) ∧
    (expr.data.contains '/' = false →
      tokenize expr = ((expr.data.splitOnP rustIsWhitespace).filter
        (fun t => t ≠ [])).map (fun t => String.mk t) ∧
      (expr.data.splitOnP rustIsWhitespace).flatten =
        expr.data.filter (fun c => !rustIsWhitespace c) ∧
      (∀ t ∈ tokenize expr, t ≠ "" ∧ ∀ c ∈ t.data, rustIsWhitespace c = false)) ∧
    List.intercalate ['/'] (expr.data.splitOn '/') = expr.data ∧
    (∀ t ∈ expr.data.splitOn '/', ∀ c ∈ t, (c == '/') = false) ∧
    stripOperators ts = ts.filter (fun t => !isOperatorToken t) ∧
    (∀ t, isOperatorToken t = true ↔ (t = "WITH" ∨ t = "OR" ∨ t = "AND")) := by
  refine ⟨?_, ?_, ?_, ?_, stripOperators_eq_filter ts, isOperatorToken_iff⟩
  · intro h
    rw [tokenize, if_pos h]
  · intro h
    have hbranch : tokenize expr = ((expr.data.splitOnP rustIsWhitespace).filter
        (fun t => t ≠ [])).map (fun t => String.mk t) := by
      rw [tokenize, if_neg (by rw [h]; simp)]
    refine ⟨hbranch, flatten_splitOnP rustIsWhitespace expr.data, ?_⟩
    intro t ht
    rw [hbranch] at ht
    rw [List.mem_map] at ht
    obtain ⟨piece, hpiece, hmk⟩ := ht
    rw [List.mem_filter] at hpiece
    obtain ⟨hmem, hne⟩ := hpiece
    constructor
    · intro hcon
      rw [← hmk] at hcon
      have : piece = [] := by
        have := congrArg String.data hcon
        exact this
      simp [this] at hne
    · intro c hc
      rw [← hmk] at hc
      exact splitOnP_sep_free rustIsWhitespace expr.data piece hmem c hc
  · exact List.intercalate_splitOn expr.data '/'
  · intro t ht c hc
    exact splitOnP_sep_free (fun x => x == '/') expr.data t ht c hc

theorem C4_witness :
    tokenize "MIT/Apache-2.0" = ["MIT", "Apache-2.0"] ∧
    tokenize "MIT OR Apache-2.0" = ["MIT", "OR", "Apache-2.0"] ∧
    stripOperators ["MIT", "OR", "Apache-2.0"] = ["MIT", "Apache-2.0"] := by
  refine ⟨?_, ?_, ?_⟩
  · exact ((C4_tokenization "MIT/Apache-2.0" []).1 (by decide)).trans (by decide)
  · exact (((C4_tokenization "MIT OR Apache-2.0" []).2.1 (by decide)).1).trans
      (by decide)
  · exact ((C4_tokenization "" ["MIT", "OR", "Apache-2.0"]).2.2.2.2.1).trans
      (by decide)

/-- C5: for every expression joining two distinct SPDX IDs that are both in
the reference list and resolvable in the catalog, with separator style
`OR`, `/` or `AND`, `parse_spdx` succeeds and returns exactly the two
resolved licenses in left-to-right order, regardless of the separator
style. -/
theorem C5_two_id_expressions (a b : String) (la lb : License)
    (hab : a ≠ b)
    (hva : is_valid_spdx_id a = true) (hvb : is_valid_spdx_id b = true)
    (hfa : LICENSES.find? (fun l => l.spdx == a) = some la)
    (hfb : LICENSES.find? (fun l => l.spdx == b) = some lb) :
    parse_spdx is_valid_spdx_id LICENSES (a ++ " OR " ++ b) = .ok [la, lb] ∧
    parse_spdx is_valid_spdx_id LICENSES (a ++ "/" ++ b) = .ok [la, lb] ∧
    parse_spdx is_valid_spdx_id LICENSES (a ++ " AND " ++ b) = .ok [la, lb] := by
  have hall : ∀ s ∈ SPDX_LICENSE_IDS, s.data ≠ [] ∧
      (∀ c ∈ s.data, (c == '/') = false ∧ rustIsWhitespace c = false) ∧
      isOperatorToken s = false := by decide
  have hshape : ∀ s, is_valid_spdx_id s = true → s.data ≠ [] ∧
      (∀ c ∈ s.data, (c == '/') = false ∧ rustIsWhitespace c = false) ∧
      isOperatorToken s = false := by
    intro s hs
    rw [is_valid_spdx_id, List.any_eq_true] at hs
    obtain ⟨x, hx, hxe⟩ := hs
    rw [beq_iff_eq] at hxe
    rw [← hxe]
    exact hall x hx
  obtain ⟨ha0, ha, haop⟩ := hshape a hva
  obtain ⟨hb0, hbs, hbop⟩ := hshape b hvb
  have h := parse_spdx_pair is_valid_spdx_id LICENSES a b la lb ha0 hb0 ha hbs
    haop hbop hva hvb hfa hfb
  exact ⟨h.2.1, h.1, h.2.2⟩

theorem C5_witness :
    parse_spdx is_valid_spdx_id LICENSES ("MIT" ++ " OR " ++ "Apache-2.0") =
      .ok [mitLicense, apacheLicense] ∧
    parse_spdx is_valid_spdx_id LICENSES ("MIT" ++ "/" ++ "Apache-2.0") =
      .ok [mitLicense, apacheLicense] ∧
    parse_spdx is_valid_spdx_id LICENSES ("MIT" ++ " AND " ++ "Apache-2.0") =
      .ok [mitLicense, apacheLicense] :=
  C5_two_id_expressions "MIT" "Apache-2.0" mitLicense apacheLicense
    (by decide) (by decide) (by decide) (by decide) (by decide)

/-- C9: an empty expression, or one whose every token after the dual-mode
split is an operator keyword, is not rejected: `parse_spdx` returns the
empty list, and `render_license_text` on the empty list (with a catalog
whose templates all compile, as the real bundled catalog's do) returns the
empty mapping with no error. -/
theorem C9_empty_expression (valid : String → Bool) (catalog : List License)
    (expr : String) (hb : Handlebars) (globalLicenses : List License)
    (year : Int) (authors : List String)
    (hexpr : expr = "" ∨ ∀ t ∈ tokenize expr, t = "WITH" ∨ t = "OR" ∨ t = "AND")
    (hreg : globalLicenses.all (fun l => hb.compileOk l.text) = true) :
    parse_spdx valid catalog expr = .ok [] ∧
    render_license_text hb globalLicenses year [] authors = .ok [] := by
  constructor
  · have htok : stripOperators (tokenize expr) = [] := by
      rcases hexpr with h | h
      · subst h
        decide
      · rw [stripOperators_eq_filter]
        rw [List.filter_eq_nil_iff]
        intro t ht
        have hop := (isOperatorToken_iff t).mpr (h t ht)
        simp [hop]
    rw [parse_spdx, htok]
    rfl
  · unfold render_license_text
    rw [if_pos hreg]
    rfl

theorem C9_witness :
    parse_spdx is_valid_spdx_id LICENSES "OR AND" = .ok [] ∧
    render_license_text ⟨fun _ => true, fun text _ => .ok text⟩ LICENSES 2024
      [] ["Jane Doe"] = .ok [] :=
  C9_empty_expression is_valid_spdx_id LICENSES "OR AND"
    ⟨fun _ => true, fun text _ => .ok text⟩ LICENSES 2024 ["Jane Doe"]
    (Or.inr (by decide)) (by decide)

/-- C7: author normalization.  `parse_author_names` fails (with the only
error kind, `noAuthors`) exactly on the empty list; on a nonempty list each
entry is replaced by the greedy name capture of the git-style pattern when
the entry matches it (the name runs verbatim, whitespace included, up to
the last usable blank-`<`..`>` pair), and is returned unchanged
otherwise. -/
theorem C7_author_normalization :
    (∀ authors, (∃ e, parse_author_names authors = .error e) ↔ authors = []) ∧
    (∀ authors, authors ≠ [] → parse_author_names authors =
      .ok (authors.map fun a => (parse_git_style_author a).getD a)) ∧
    (∀ (s n : String), '\n' ∉ s.data →
      (parse_git_style_author s = some n ↔ GitGreedyName s.data n.data)) :=
  ⟨parse_author_names_error_iff, parse_author_names_of_ne_nil,
   fun s n hnl => parse_git_style_author_iff s hnl n⟩

theorem C7_witness :
    parse_author_names ["John Doe <jd@example.com>", "Plain Name"] =
      .ok ["John Doe", "Plain Name"] := by
  have h := C7_author_normalization.2.1
    ["John Doe <jd@example.com>", "Plain Name"] (by simp)
  rw [h]
  rfl

/-- C6: output file naming.  With exactly one input license, the single
successful output file is named the literal `LICENSE`; with two or more,
every output file is named `LICENSE-` followed by that license's
`identifier`, every input license contributes its name, and no file is
named plain `LICENSE`. -/
theorem C6_output_naming (hb : Handlebars) (globalLicenses : List License)
    (year : Int) (authors : List String) :
    (∀ l m, render_license_text hb globalLicenses year [l] authors = .ok m →
      ∃ v, m = [("LICENSE", v)]) ∧
    (∀ licenses m, 2 ≤ licenses.length →
      render_license_text hb globalLicenses year licenses authors = .ok m →
      (∀ kv ∈ m, (∃ l ∈ licenses, kv.1 = "LICENSE-" ++ l.identifier) ∧
        kv.1 ≠ "LICENSE") ∧
      (∀ l ∈ licenses, ("LICENSE-" ++ l.identifier) ∈ keysOf m)) := by
  constructor
  · intro l m h
    obtain ⟨-, hra⟩ := render_ok_inv hb globalLicenses year [l] authors m h
    rw [renderAll] at hra
    cases hro : renderOne hb globalLicenses year authors l with
    | error e =>
      rw [hro] at hra
      dsimp only at hra
      exact absurd hra (by simp)
    | ok contents =>
      rw [hro] at hra
      dsimp only at hra
      rw [renderAll] at hra
      injection hra with hra
      refine ⟨contents, ?_⟩
      rw [← hra]
      rfl
  · intro licenses m hlen h
    obtain ⟨-, hra⟩ := render_ok_inv hb globalLicenses year licenses authors m h
    have htot : licenses.length ≠ 1 := by omega
    have hkeys := renderAll_ok_keys hb globalLicenses year authors
      licenses.length licenses [] m hra
    constructor
    · intro kv hkv
      rcases renderAll_mem hb globalLicenses year authors licenses.length
        licenses [] m hra kv hkv with h1 | ⟨l, hl, hn, -⟩
      · exact absurd h1 (by simp)
      · rw [nameOf_of_ne_one _ _ htot] at hn
        refine ⟨⟨l, hl, hn⟩, ?_⟩
        rw [hn]
        exact license_dash_ne_LICENSE l.identifier
    · intro l hl
      rw [hkeys ("LICENSE-" ++ l.identifier)]
      right
      exact ⟨l, hl, (nameOf_of_ne_one _ _ htot).symm⟩

theorem C6_witness :
    ("LICENSE-" ++ apacheLicense.identifier) ∈ keysOf
      [("LICENSE-APACHE", "Apache License text template"),
       ("LICENSE-MIT", "MIT License text template")] ∧
    ("LICENSE-MIT", "MIT License text template").1 ≠ "LICENSE" := by
  have h := (C6_output_naming hbId LICENSES 2024 ["Jane Doe"]).2
    [mitLicense, apacheLicense]
    [("LICENSE-APACHE", "Apache License text template"),
     ("LICENSE-MIT", "MIT License text template")]
    (by decide) rfl
  exact ⟨h.2 apacheLicense (by decide),
    (h.1 ("LICENSE-MIT", "MIT License text template") (by decide)).2⟩

/-- C8: template substitution inputs.  Every rendered file's contents is
produced by rendering that license's registered template with exactly the
data record holding the given year and the authors joined by a comma and a
blank, in their given order. -/
theorem C8_template_data (hb : Handlebars) (globalLicenses : List License)
    (year : Int) (licenses : List License) (authors : List String)
    (m : List (String × String))
    (hok : render_license_text hb globalLicenses year licenses authors = .ok m) :
    ∀ kv ∈ m, ∃ l ∈ licenses, ∃ text,
      registryLookup globalLicenses l.spdx = some text ∧
      hb.renderTpl text ⟨year, String.intercalate ", " authors⟩ = .ok kv.2 := by
  obtain ⟨-, hra⟩ := render_ok_inv hb globalLicenses year licenses authors m hok
  intro kv hkv
  rcases renderAll_mem hb globalLicenses year authors licenses.length licenses
    [] m hra kv hkv with h1 | ⟨l, hl, -, hre⟩
  · exact absurd h1 (by simp)
  · refine ⟨l, hl, ?_⟩
    unfold renderOne at hre
    cases hlook : registryLookup globalLicenses l.spdx with
    | none =>
      rw [hlook] at hre
      dsimp only at hre
      exact absurd hre (by simp)
    | some text =>
      rw [hlook] at hre
      dsimp only at hre
      exact ⟨text, rfl, hre⟩

theorem C8_witness :
    hbId.renderTpl mitLicense.text
      ⟨2024, String.intercalate ", " ["Jane Doe", "Richard Roe"]⟩ =
      .ok "MIT License text template" := by
  have h := C8_template_data hbId LICENSES 2024 [mitLicense]
    ["Jane Doe", "Richard Roe"] [("LICENSE", "MIT License text template")] rfl
    ("LICENSE", "MIT License text template") (by simp)
  obtain ⟨l, hl, text, hlook, hrend⟩ := h
  rw [List.mem_singleton] at hl
  subst hl
  have htext : text = mitLicense.text := by
    have h2 : (some mitLicense.text : Option String) = some text := hlook
    injection h2 with h2
    exact h2.symm
  rw [htext] at hrend
  exact hrend

/-- C10: duplicate licenses silently collapse.  With at least two input
licenses among which some identifier repeats, a successful render returns a
map whose keys are exactly the distinct `LICENSE-{identifier}` names (no
plain `LICENSE`, no duplicate keys), so the map is strictly shorter than
the input list, and the value stored under a repeated identifier is the
rendering of its last occurrence (later duplicates overwrite earlier
ones). -/
theorem C10_duplicate_collapse (hb : Handlebars) (globalLicenses : List License)
    (year : Int) (licenses : List License) (authors : List String)
    (m : List (String × String))
    (hlen : 2 ≤ licenses.length)
    (hdup : ¬ (licenses.map License.identifier).Nodup)
    (hok : render_license_text hb globalLicenses year licenses authors = .ok m) :
    (∀ k, k ∈ keysOf m ↔ ∃ l ∈ licenses, k = "LICENSE-" ++ l.identifier) ∧
    (keysOf m).Nodup ∧
    m.length = (licenses.map License.identifier).dedup.length ∧
    m.length < licenses.length ∧
    (∀ kv ∈ m, kv.1 ≠ "LICENSE") ∧
    (∀ l ∈ licenses, ∃ l' c,
      licenses.reverse.find? (fun x => x.identifier == l.identifier) = some l' ∧
      renderOne hb globalLicenses year authors l' = .ok c ∧
      mapLookup ("LICENSE-" ++ l.identifier) m = some c) := by
  obtain ⟨-, hra⟩ := render_ok_inv hb globalLicenses year licenses authors m hok
  have htot : licenses.length ≠ 1 := by omega
  have hkeys : ∀ k, k ∈ keysOf m ↔ ∃ l ∈ licenses, k = "LICENSE-" ++ l.identifier := by
    intro k
    rw [renderAll_ok_keys hb globalLicenses year authors licenses.length
      licenses [] m hra k]
    constructor
    · rintro (h1 | ⟨l, hl, hn⟩)
      · exact absurd h1 (by simp [keysOf])
      · exact ⟨l, hl, by rw [hn, nameOf_of_ne_one _ _ htot]⟩
    · rintro ⟨l, hl, hn⟩
      exact Or.inr ⟨l, hl, by rw [hn, nameOf_of_ne_one _ _ htot]⟩
  have hsorted : SortedKeys m := renderAll_sorted hb globalLicenses year
    authors licenses.length licenses [] m (by simp [SortedKeys]) hra
  have hnodup : (keysOf m).Nodup := keysOf_nodup m hsorted
  have hinj : Function.Injective (fun s => "LICENSE-" ++ s) :=
    fun x y hxy => stringAppendCancelLeft hxy
  have hnames : licenses.map (fun l => "LICENSE-" ++ l.identifier) =
      (licenses.map License.identifier).map (fun s => "LICENSE-" ++ s) := by
    rw [List.map_map]
    rfl
  have hfin : (keysOf m).toFinset =
      (licenses.map (fun l => "LICENSE-" ++ l.identifier)).toFinset := by
    apply Finset.ext
    intro k
    rw [List.mem_toFinset, List.mem_toFinset, hkeys, List.mem_map]
    constructor
    · rintro ⟨l, hl, hn⟩
      exact ⟨l, hl, hn.symm⟩
    · rintro ⟨l, hl, hn⟩
      exact ⟨l, hl, hn.symm⟩
  have hcount : m.length = (licenses.map License.identifier).dedup.length := by
    have h1 : m.length = (keysOf m).length := (List.length_map m Prod.fst).symm
    have h2 : (keysOf m).length = (keysOf m).toFinset.card :=
      (List.toFinset_card_of_nodup hnodup).symm
    have h3 : (licenses.map (fun l => "LICENSE-" ++ l.identifier)).toFinset.card =
        (licenses.map (fun l => "LICENSE-" ++ l.identifier)).dedup.length :=
      List.card_toFinset _
    have h4 : (licenses.map (fun l => "LICENSE-" ++ l.identifier)).dedup =
        (licenses.map License.identifier).dedup.map (fun s => "LICENSE-" ++ s) := by
      rw [hnames]
      exact List.dedup_map_of_injective hinj _
    rw [h1, h2, hfin, h3, h4, List.length_map]
  refine ⟨hkeys, hnodup, hcount, ?_, ?_, ?_⟩
  · have hsub := List.dedup_sublist (licenses.map License.identifier)
    have hle := hsub.length_le
    have hne : (licenses.map License.identifier).dedup ≠
        licenses.map License.identifier :=
      fun hcon => hdup (List.dedup_eq_self.mp hcon)
    have hlenne : (licenses.map License.identifier).dedup.length ≠
        (licenses.map License.identifier).length :=
      fun hlencon => hne (hsub.eq_of_length hlencon)
    have hmaplen : (licenses.map License.identifier).length = licenses.length :=
      List.length_map licenses License.identifier
    omega
  · intro kv hkv
    have hk : kv.1 ∈ keysOf m := List.mem_map_of_mem Prod.fst hkv
    obtain ⟨l, -, heq⟩ := (hkeys kv.1).mp hk
    rw [heq]
    exact license_dash_ne_LICENSE l.identifier
  · intro l hl
    have hlast := renderAll_lookup_last hb globalLicenses year authors
      licenses.length licenses [] m hra ("LICENSE-" ++ l.identifier)
    have hpred : (fun x => nameOf licenses.length x ==
        ("LICENSE-" ++ l.identifier)) =
        (fun x => x.identifier == l.identifier) := by
      funext x
      rw [nameOf_of_ne_one _ _ htot]
      by_cases hx : x.identifier = l.identifier
      · simp [hx]
      · have hne2 : ¬ ("LICENSE-" ++ x.identifier =
            "LICENSE-" ++ l.identifier) :=
          fun hcon => hx (stringAppendCancelLeft hcon)
        simp [hx, hne2]
    rw [hpred] at hlast
    cases hf : licenses.reverse.find? (fun x => x.identifier == l.identifier) with
    | none =>
      rw [hf] at hlast
      dsimp only at hlast
      have hk : ("LICENSE-" ++ l.identifier) ∈ keysOf m :=
        (hkeys _).mpr ⟨l, hl, rfl⟩
      rw [show mapLookup ("LICENSE-" ++ l.identifier)
        ([] : List (String × String)) = none from rfl] at hlast
      exact absurd ((mapLookup_eq_none_iff _ m).mp hlast) (by simp [hk])
    | some l' =>
      rw [hf] at hlast
      dsimp only at hlast
      obtain ⟨c, hc1, hc2⟩ := hlast
      exact ⟨l', c, rfl, hc1, hc2⟩

theorem C10_witness :
    ([("LICENSE-MIT", "MIT License text template")] :
      List (String × String)).length <
      ([mitLicense, mitLicense] : List License).length ∧
    mapLookup ("LICENSE-" ++ mitLicense.identifier)
      [("LICENSE-MIT", "MIT License text template")] =
      some "MIT License text template" := by
  have h := C10_duplicate_collapse hbId LICENSES 2024 [mitLicense, mitLicense]
    ["Jane Doe"] [("LICENSE-MIT", "MIT License text template")]
    (by decide) (by decide) rfl
  refine ⟨h.2.2.2.1, ?_⟩
  obtain ⟨l', c, -, -, hc⟩ := h.2.2.2.2.2 mitLicense (by decide)
  have h2 : (some "MIT License text template" : Option String) = some c := hc
  injection h2 with h2
  rw [hc, ← h2]

/-- C1 counterexample: the claim says a malformed stored template makes
`render_license_text` return an error result and never abort; but on an
engine where the catalog's templates fail to compile the function aborts
(the `expect` panic in the registration loop, modelled by the `panicked`
outcome, which is a constructor distinct from `err` and `ok`), even for an
empty input license list. -/
theorem C1_counterexample :
    render_license_text hbBroken LICENSES 2024 [] ["Jane Doe"] =
      .panicked "syntax error in license template" ∧
    isPanic (render_license_text hbBroken LICENSES 2024 [] ["Jane Doe"]) = true :=
  ⟨rfl, rfl⟩

/-- C1 (amended): if any stored catalog template has a syntax defect,
`render_license_text` aborts by panic with the message
`syntax error in license template` (the `expect` in the registration loop)
for every input license list and author list; when every catalog template
compiles, it never panics — the outcome is a returned result. -/
theorem C1_template_defect_panics (hb : Handlebars) (globalLicenses : List License)
    (year : Int) (licenses : List License) (authors : List String) :
    ((∃ l ∈ globalLicenses, hb.compileOk l.text = false) →
      render_license_text hb globalLicenses year licenses authors =
        .panicked "syntax error in license template") ∧
    ((∀ l ∈ globalLicenses, hb.compileOk l.text = true) →
      ∀ msg, render_license_text hb globalLicenses year licenses authors ≠
        .panicked msg) := by
  constructor
  · rintro ⟨l, hl, hc⟩
    unfold render_license_text
    have hfalse : ¬ (globalLicenses.all
        (fun license => hb.compileOk license.text) = true) := by
      rw [List.all_eq_true]
      intro hall
      have h2 : hb.compileOk l.text = true := hall l hl
      rw [hc] at h2
      exact absurd h2 (by simp)
    rw [if_neg hfalse]
  · intro hall msg
    unfold render_license_text
    rw [if_pos (List.all_eq_true.mpr hall)]
    cases renderAll hb globalLicenses year authors licenses.length [] licenses with
    | ok m => simp
    | error e => simp

theorem C1_witness :
    render_license_text hbBroken LICENSES 2024 [mitLicense] ["Jane Doe"] =
      .panicked "syntax error in license template" :=
  (C1_template_defect_panics hbBroken LICENSES 2024 [mitLicense]
    ["Jane Doe"]).1 ⟨mitLicense, by decide, rfl⟩

end ApplyLicense
